import Mathlib

/-!
Shallow embedding of the riptide-server queue admission scheduler
(package queue, file torrent_info.go), the bolt-backed store it uses
(database/database.go), and the per-torrent lifecycle worker loop
(manage_torrent.go, startTorrent) together with the progress update
(TorrentProgress.Update).  Machine integers are modelled as Nat / Int with
explicit wrap where the source wraps; the float64 ratio fields are modelled
over the rationals, which is faithful for the sign comparisons the code
performs (against the exact constants 0 and -1).
-/

namespace Riptide

/-! ## The store model (database/database.go)

Bolt keeps each bucket as a key-ordered map of byte strings.  `itob` is the
8-byte big-endian encoding used for auto-increment keys (`itob` in
database.go, `binary.BigEndian.PutUint64`); `keyLt` is the byte-wise
lexicographic order bolt sorts keys by (`bytes.Compare < 0`). -/

/-- Big-endian base-256 digits of `v`, `w` bytes, most significant first. -/
def itobW : Nat → Nat → List Nat
  | 0, _ => []
  | w + 1, v => (v / 256 ^ w) :: itobW w (v % 256 ^ w)

/-- The 8-byte big-endian key encoding of a uint64 sequence number
(database.go `itob`; the argument is a uint64, hence the wrap). -/
def itob (v : Nat) : List Nat := itobW 8 (v % 2 ^ 64)

/-- Byte-string order used by bolt for key placement (`bytes.Compare`):
lexicographic, a strict prefix sorts first. -/
def keyLt : List Nat → List Nat → Bool
  | [], [] => false
  | [], _ :: _ => true
  | _ :: _, [] => false
  | a :: as, b :: bs =>
    if a < b then true else if b < a then false else keyLt as bs

/-- Insert a key/value pair into a key-sorted association list, replacing an
equal key, as bolt `Bucket.Put` places a key in its B-tree. -/
def insertKey (k : List Nat) (v : String) :
    List (List Nat × String) → List (List Nat × String)
  | [] => [(k, v)]
  | (k', v') :: rest =>
    if keyLt k k' then (k, v) :: (k', v') :: rest
    else if k = k' then (k, v) :: rest
    else (k', v') :: insertKey k v rest

/-- One bolt bucket: key-sorted entries plus the uint64 auto-increment
sequence counter (`NextSequence`). -/
structure Bucket where
  entries : List (List Nat × String)
  seq : Nat
deriving DecidableEq, Repr

/-- The empty bucket, as created by `CreateBucketIfNotExists`. -/
def Bucket.empty : Bucket := ⟨[], 0⟩

/-- `db.Put(bucket, db.AutoIncrement, v)`: `NextSequence` increments the
uint64 counter and the new value keys the entry via `itob`
(database.go `Put`, the `AutoIncrement` branch). -/
def Bucket.putAuto (b : Bucket) (v : String) : Bucket :=
  let id := (b.seq + 1) % 2 ^ 64
  { entries := insertKey (itob id) v b.entries, seq := id }

/-- `db.Get(bucket, db.GetFirstKey)`: the cursor positioned at `First`
returns the entry with the smallest key, `nil` when empty. -/
def Bucket.getFirst (b : Bucket) : Option String := b.entries.head?.map Prod.snd

/-- `db.Delete(bucket, db.GetFirstKey)`: deletes the entry at the first
(smallest) key; no effect on the sequence counter. -/
def Bucket.deleteFirst (b : Bucket) : Bucket := { b with entries := b.entries.tail }

/-- `queue.Remove(hash)`: iterate the bucket and delete every entry whose
value equals `h` (torrent_info.go `Remove`). -/
def Bucket.removeValue (b : Bucket) (h : String) : Bucket :=
  { b with entries := b.entries.filter (fun e => e.2 ≠ h) }

/-- The list of stored values in key order. -/
def Bucket.values (b : Bucket) : List String := b.entries.map Prod.snd

/-- A sequence of `queue.Add` calls starting from an empty queued bucket:
each appends its hash under a fresh auto-increment key. -/
def addAll (hs : List String) : Bucket := hs.foldl Bucket.putAuto Bucket.empty

/-! ## The scheduler model (torrent_info.go, package queue)

State visible to the queue package: the durable queued bucket, the control
loop counter `numActive`, and the `activeHashes` membership map (a set: the
stored value is always `nil`).  An operation sequence is a list of events;
each event is one atomic scheduler operation:

* `add h`    — `queue.Add(h)` (runs outside the control loop);
* `remove h` — `queue.Remove(h)` (runs outside the control loop);
* `done h`   — `queue.Done(h)` together with the `cDone` arm of `Run` that
  its signal wakes, followed by the pop attempt closing that loop iteration;
* `force h`  — the `cForce` arm of `Run` fed by `ForceNext(h)` (increment,
  `Remove(h)`, yield to `Next`, which stores `h` in `activeHashes`),
  followed by the pop attempt;
* `tick`     — the ticker arm, followed by the pop attempt.

The pop attempt is `Run`'s trailing `if numActive < maxActive` block: probe
the first queued key; when present, increment the counter, yield the value
(the consumer's `Next` stores it in `activeHashes`) and delete the first
key. -/

/-- Scheduler state: queued bucket, admission counter, active-hash set. -/
structure QState where
  backlog : Bucket
  numActive : Nat
  active : Finset String
deriving DecidableEq

/-- State at `Run` startup: nothing queued, counter zero, no active hashes.
The name mirrors the zero state the package variables start from. -/
def QState.start : QState := ⟨Bucket.empty, 0, ∅⟩

/-- `queue.Done(h)`: only when `h` is held in `activeHashes`, signal `cDone`
(the loop decrements the counter, clamping at zero — `Nat` subtraction is
exactly that clamp) and delete `h` from `activeHashes`. -/
def doneOp (h : String) (s : QState) : QState :=
  if h ∈ s.active then
    { s with numActive := s.numActive - 1, active := s.active.erase h }
  else s

/-- What a scheduler step hands to the consumer, tagged by the path that
produced it: a backlog pop or a forced admission. -/
inductive Yield
  | popped (h : String)
  | forced (h : String)
deriving DecidableEq, Repr

/-- The trailing pop block of `Run`: when the counter is below `maxActive`
and the queued bucket has a first entry, increment the counter, yield the
value and delete the first key. -/
def popAttempt (k : Nat) (s : QState) : QState × List Yield :=
  if s.numActive < k then
    match s.backlog.getFirst with
    | none => (s, [])
    | some h =>
      ({ backlog := s.backlog.deleteFirst,
         numActive := s.numActive + 1,
         active := insert h s.active }, [.popped h])
  else (s, [])

/-- One atomic scheduler operation. -/
inductive Event
  | add (h : String)
  | remove (h : String)
  | done (h : String)
  | force (h : String)
  | tick
deriving DecidableEq, Repr

/-- One event against a scheduler state, returning the new state and the
hashes yielded to the consumer during that event. -/
def stepE (k : Nat) (s : QState) : Event → QState × List Yield
  | .add h => ({ s with backlog := s.backlog.putAuto h }, [])
  | .remove h => ({ s with backlog := s.backlog.removeValue h }, [])
  | .done h => popAttempt k (doneOp h s)
  | .force h =>
    let s' : QState :=
      { backlog := s.backlog.removeValue h,
        numActive := s.numActive + 1,
        active := insert h s.active }
    let p := popAttempt k s'
    (p.1, .forced h :: p.2)
  | .tick => popAttempt k s

/-- Run a sequence of scheduler operations, accumulating the yields. -/
def runE (k : Nat) (s : QState) : List Event → QState × List Yield
  | [] => (s, [])
  | e :: es =>
    let p := stepE k s e
    let q := runE k p.1 es
    (q.1, p.2 ++ q.2)

/-- How many forced admissions an operation sequence contains. -/
def countForce : List Event → Nat
  | [] => 0
  | .force _ :: es => countForce es + 1
  | _ :: es => countForce es

/-- The caller discipline documented for `Add`: every `add` event names a
hash not currently stored in the queued bucket.  Checked against the
evolving state. -/
def addsFresh (k : Nat) : QState → List Event → Bool
  | _, [] => true
  | s, e :: es =>
    (match e with
     | .add h => !(s.backlog.values.contains h)
     | _ => true) && addsFresh k (stepE k s e).1 es

/-! ## The lifecycle worker model (manage_torrent.go, startTorrent)

The per-tick body of the worker loop, given the freshly reloaded status and
the freshly updated progress, is a straight-line status pipeline: the
QUEUED block, the ACTIVE completion block, the DONE block (which performs
`queue.Done` and may flip to SEEDING), and the SEEDING block.  The ratio
fields, float64 in the source, are modelled over `ℚ`; the global target is
`gr` (the `globalRatio` flag, 0 = no seeding, -1 = unlimited) and the
current upload/download ratio is `rt` (`progress.Ratio`). -/

/-- Torrent status (the `Status` constants of torrent_info.go). -/
inductive Status
  | pending
  | queued
  | active
  | stopped
  | done
  | seeding
deriving DecidableEq, Repr

/-- The QUEUED block: `if info.Status == StatusQueued { t.DownloadAll();
info.Status = StatusActive }`. -/
def stepQueued (st : Status) : Status :=
  if st = .queued then .active else st

/-- The ACTIVE block: `if info.Status == StatusActive { if
progress.BytesCompleted >= info.TotalBytes { info.Status = StatusDone } }`. -/
def stepComplete (completed total : Int) (st : Status) : Status :=
  if st = .active ∧ total ≤ completed then .done else st

/-- The DONE block minus the data-move side effect: when the status is DONE
it flips to SEEDING exactly when `globalRatio != -1 && progress.Ratio <
globalRatio`, and `queue.Done(hash)` is called (the returned flag).  The
move/symlink side effect does not touch the status. -/
def stepDoneBlock (gr rt : ℚ) (st : Status) : Status × Bool :=
  if st = .done then
    (if gr ≠ -1 ∧ rt < gr then .seeding else .done, true)
  else (st, false)

/-- The SEEDING block: `if info.Status == StatusSeeding { if progress.Ratio
>= globalRatio { info.Status = StatusDone } }`. -/
def stepSeeding (gr rt : ℚ) (st : Status) : Status :=
  if st = .seeding ∧ gr ≤ rt then .done else st

/-- One whole tick of the status pipeline, from the reloaded status: the
resulting status to be saved, and whether `queue.Done` was called during
the tick. -/
def tickStep (gr rt : ℚ) (completed total : Int) (st : Status) : Status × Bool :=
  let s1 := stepQueued st
  let s2 := stepComplete completed total s1
  let p := stepDoneBlock gr rt s2
  (stepSeeding gr rt p.1, p.2)

/-- Outcome of one iteration of the worker loop: leave the loop (reaching
the `close` label) or keep looping with the status just saved and whether
`queue.Done` was called this iteration. -/
inductive WorkerRes
  | exit
  | cont (st : Status) (doneCalled : Bool)
deriving DecidableEq, Repr

/-- What one iteration of the `for` loop in `startTorrent` reacts to: the
`closeSignal` arm (`goto close`), the client having dropped the torrent
(`break`), a failed reload (`break`), or a normal tick carrying the
reloaded status and the updated progress numbers. -/
inductive WorkerEvent
  | closeSig
  | dropped
  | reloadError
  | tick (reloaded : Status) (rt : ℚ) (completed total : Int)
deriving DecidableEq, Repr

/-- One iteration of the worker loop.  The loop leaves only via
`closeSignal`, a client drop, a reload error, or the trailing
`if info.Status == StatusDone { break }`. -/
def workerStep (gr : ℚ) : WorkerEvent → WorkerRes
  | .closeSig => .exit
  | .dropped => .exit
  | .reloadError => .exit
  | .tick st rt completed total =>
    let p := tickStep gr rt completed total st
    if p.1 = .done then .exit else .cont p.1 p.2

/-! ## The progress update (TorrentProgress.Update, go-socket helpers file)

Byte counters are int64 in the source; the two divisions by 2 are Go int64
divisions (truncation toward zero, `Int.div`), and the float64 ratio is
modelled as the exact rational quotient — faithful for every comparison the
lifecycle code makes against 0 and -1. -/

/-- TorrentProgress: the per-torrent activity record. -/
structure TorrentProgress where
  hash : String
  bytesCompleted : Int
  bytesUploaded : Int
  bpsUp : Int
  bpsDown : Int
  activePeers : Int
  totalPeers : Int
  ratioQ : ℚ
deriving DecidableEq, Repr

/-- `TorrentProgress.Update`: smooth the rates, record the new counters, and
recompute the ratio as uploaded over completed, zero when nothing is
completed. -/
def updateProgress (tp : TorrentProgress) (bytesWritten completed peers allPeers : Int) :
    TorrentProgress :=
  { hash := tp.hash
    bpsUp := Int.tdiv (tp.bpsUp + (bytesWritten - tp.bytesUploaded)) 2
    bytesUploaded := bytesWritten
    bpsDown := Int.tdiv (tp.bpsDown + (completed - tp.bytesCompleted)) 2
    bytesCompleted := completed
    activePeers := peers
    totalPeers := allPeers
    ratioQ := if completed = 0 then 0 else (bytesWritten : ℚ) / (completed : ℚ) }

/-! ## Helper lemmas -/

/-- `Done` of a hash not held in `activeHashes` changes nothing. -/
lemma doneOp_not_mem {h : String} {s : QState} (hm : h ∉ s.active) :
    doneOp h s = s := by
  simp [doneOp, hm]

/-! ## C5: Done releases a slot only for an active id, and is idempotent -/

/-- C5: for every state in which `id` is not a member of ActiveSet,
`Done(id)` has no observable effect (the whole state is unchanged); when
`id` is a member, it removes `id` from ActiveSet, decrements the admission
counter by one (exactly one slot whenever the counter dominates the set
size, as it does in every reachable state), and leaves the backlog alone. -/
theorem done_only_releases_active (s : QState) (h : String) :
    (h ∉ s.active → doneOp h s = s) ∧
    (h ∈ s.active →
      (doneOp h s).active = s.active.erase h ∧
      (doneOp h s).numActive = s.numActive - 1 ∧
      (doneOp h s).backlog = s.backlog ∧
      (s.active.card ≤ s.numActive → s.numActive = (doneOp h s).numActive + 1)) := by
  refine ⟨fun hm => doneOp_not_mem hm, fun hm => ⟨?_, ?_, ?_, ?_⟩⟩
  · simp [doneOp, hm]
  · simp [doneOp, hm]
  · simp [doneOp, hm]
  · intro hc
    have h1 : 0 < s.active.card := Finset.card_pos.mpr ⟨h, hm⟩
    simp only [doneOp, if_pos hm]
    omega

/-- Witness for C5 at a concrete state: a non-member `Done` is a no-op and a
member `Done` erases the id. -/
theorem done_only_releases_active_witness :
    doneOp "b" ⟨Bucket.empty, 1, {"a"}⟩ = ⟨Bucket.empty, 1, {"a"}⟩ ∧
    (doneOp "a" ⟨Bucket.empty, 1, {"a"}⟩).active = ({"a"} : Finset String).erase "a" :=
  ⟨(done_only_releases_active ⟨Bucket.empty, 1, {"a"}⟩ "b").1 (by decide),
   ((done_only_releases_active ⟨Bucket.empty, 1, {"a"}⟩ "a").2 (by decide)).1⟩

/-! ## C3: a tick that reloads STOPPED does not terminate the worker loop -/

/-- C3 counterexample: with any target (here 1) a tick whose reloaded
status is STOPPED does not leave the worker loop — the loop body has no
branch for STOPPED, so the iteration ends in `cont`, not `exit`. -/
theorem stopped_reload_not_exit_cex :
    workerStep 1 (.tick .stopped 0 0 0) ≠ WorkerRes.exit := by decide

/-- C3 amended: a tick whose reloaded status is STOPPED leaves the status
unchanged, calls no `queue.Done`, and keeps looping; the worker loop is
terminated by the `closeSignal` channel (sent by `stopTorrent`, which the
user stop command invokes alongside persisting STOPPED), not by observing
the persisted STOPPED status. -/
theorem stopped_reload_keeps_looping (gr rt : ℚ) (completed total : Int) :
    workerStep gr (.tick .stopped rt completed total) = .cont .stopped false ∧
    workerStep gr .closeSig = .exit :=
  ⟨rfl, rfl⟩

/-! ## C6: ratio target -1 and SEEDING -/

/-- C6 counterexample: with ratio target -1 a tick entered with status
SEEDING and ratio 0 sets the status to DONE (the SEEDING block compares
`ratio >= -1`, true for every nonnegative ratio), contradicting the claim
that the status after such a tick is never DONE. -/
theorem unlimited_seeding_tick_cex :
    (tickStep (-1) 0 0 0 .seeding).1 = Status.done := by decide

/-- C6 amended: with ratio target -1 no tick ever produces status SEEDING:
the DONE→SEEDING gate requires the target to differ from -1, so a job never
reaches SEEDING while the target is -1 (making "SEEDING never goes back to
DONE" hold only vacuously along such runs), and a tick entered with an
externally persisted SEEDING status immediately yields DONE because every
nonnegative ratio is at least -1. -/
theorem unlimited_target_never_seeding (rt : ℚ) (completed total : Int)
    (st : Status) (h : 0 ≤ rt) :
    (tickStep (-1) rt completed total st).1 ≠ Status.seeding := by
  have hm : (-1 : ℚ) ≤ rt := le_trans (by norm_num) h
  cases st <;>
    simp [tickStep, stepQueued, stepComplete, stepDoneBlock, stepSeeding, hm] <;>
    split <;> simp_all

/-- Witness for C6 at ratio 0: a persisted SEEDING status under target -1
does not come out of the tick as SEEDING. -/
theorem unlimited_target_never_seeding_witness :
    (0 : ℚ) ≤ 0 ∧ (tickStep (-1) 0 0 0 .seeding).1 ≠ Status.seeding :=
  ⟨le_refl 0, unlimited_target_never_seeding 0 0 0 .seeding (le_refl 0)⟩

/-! ## C7: ratio target 0 and DONE -/

/-- C7: the ratio computed by `TorrentProgress.Update` from nonnegative
byte counters is nonnegative, and with ratio target 0 a tick entered with
status DONE stays DONE: the DONE→SEEDING gate demands a ratio strictly
below the target, impossible below 0. -/
theorem zero_target_never_seeds (tp : TorrentProgress)
    (bytesWritten completed peers allPeers : Int) (c t : Int)
    (hw : 0 ≤ bytesWritten) (hc : 0 ≤ completed) :
    0 ≤ (updateProgress tp bytesWritten completed peers allPeers).ratioQ ∧
    (tickStep 0 (updateProgress tp bytesWritten completed peers allPeers).ratioQ
      c t .done).1 = Status.done := by
  have hr : 0 ≤ (updateProgress tp bytesWritten completed peers allPeers).ratioQ := by
    by_cases h0 : completed = 0
    · simp [updateProgress, h0]
    · simp only [updateProgress, h0, if_false]
      exact div_nonneg (by exact_mod_cast hw) (by exact_mod_cast hc)
  refine ⟨hr, ?_⟩
  have hnl : ¬ (updateProgress tp bytesWritten completed peers allPeers).ratioQ < 0 :=
    not_lt.mpr hr
  simp [tickStep, stepQueued, stepComplete, stepDoneBlock, stepSeeding, hnl]

/-- Witness for C7 on concrete zero counters. -/
theorem zero_target_never_seeds_witness :
    (0 : Int) ≤ 0 ∧
    (0 ≤ (updateProgress ⟨"", 0, 0, 0, 0, 0, 0, 0⟩ 0 0 0 0).ratioQ ∧
     (tickStep 0 (updateProgress ⟨"", 0, 0, 0, 0, 0, 0, 0⟩ 0 0 0 0).ratioQ
       0 0 .done).1 = Status.done) :=
  ⟨le_refl 0,
   zero_target_never_seeds ⟨"", 0, 0, 0, 0, 0, 0, 0⟩ 0 0 0 0 0 0 (le_refl 0) (le_refl 0)⟩

/-! ## C10: queue.Done is called on the tick that reaches DONE -/

/-- C10: whenever the tick pipeline reaches DONE after the completion
check, `queue.Done` is called during that same tick, even when the DONE
block flips the status onward to SEEDING (in which case the worker keeps
looping with the slot already released); releasing makes the id a
non-member of ActiveSet, so the second `Done` on worker exit changes
nothing. -/
theorem done_called_on_completion_tick (gr rt : ℚ) (completed total : Int)
    (st : Status) (q : QState) (h : String)
    (hd : stepComplete completed total (stepQueued st) = .done) :
    (tickStep gr rt completed total st).2 = true ∧
    h ∉ (doneOp h q).active ∧
    doneOp h (doneOp h q) = doneOp h q ∧
    ((tickStep gr rt completed total st).1 = .seeding →
      workerStep gr (.tick st rt completed total) = .cont .seeding true) := by
  have h2 : (tickStep gr rt completed total st).2 = true := by
    simp [tickStep, hd, stepDoneBlock]
  have h3 : h ∉ (doneOp h q).active := by
    by_cases hm : h ∈ q.active
    · simp [doneOp, hm, Finset.not_mem_erase]
    · simp [doneOp, hm]
  refine ⟨h2, h3, doneOp_not_mem h3, ?_⟩
  intro hs
  simp [workerStep, hs, h2]

/-- Witness for C10: a completed ACTIVE tick calls `queue.Done`, and the
double release on a concrete one-active state is a no-op. -/
theorem done_called_on_completion_tick_witness :
    stepComplete 1 1 (stepQueued .active) = Status.done ∧
    (tickStep 1 0 1 1 .active).2 = true ∧
    doneOp "a" (doneOp "a" ⟨Bucket.empty, 1, {"a"}⟩) =
      doneOp "a" ⟨Bucket.empty, 1, {"a"}⟩ :=
  ⟨by decide,
   (done_called_on_completion_tick 1 0 1 1 .active ⟨Bucket.empty, 1, {"a"}⟩ "a"
     (by decide)).1,
   (done_called_on_completion_tick 1 0 1 1 .active ⟨Bucket.empty, 1, {"a"}⟩ "a"
     (by decide)).2.2.1⟩

/-! ## Scheduler admission invariant (C1, C2)

The inductive invariant: the active-hash set never outgrows the admission
counter, and the counter never outgrows `m` (instantiated at `maxActive`
plus the forced admissions seen so far). -/

/-- Admission invariant with counter ceiling `m`. -/
def SchedInv (m : Nat) (s : QState) : Prop :=
  s.active.card ≤ s.numActive ∧ s.numActive ≤ m

lemma schedInv_popAttempt {k m : Nat} {s : QState} (hk : k ≤ m)
    (hs : SchedInv m s) : SchedInv m (popAttempt k s).1 := by
  unfold popAttempt
  by_cases hlt : s.numActive < k
  · rw [if_pos hlt]
    cases hg : s.backlog.getFirst with
    | none => exact hs
    | some h =>
      refine ⟨?_, ?_⟩
      · show (insert h s.active).card ≤ s.numActive + 1
        calc (insert h s.active).card ≤ s.active.card + 1 := Finset.card_insert_le _ _
          _ ≤ s.numActive + 1 := by have := hs.1; omega
      · show s.numActive + 1 ≤ m
        omega
  · rw [if_neg hlt]; exact hs

lemma schedInv_doneOp {m : Nat} {s : QState} (hs : SchedInv m s) (h : String) :
    SchedInv m (doneOp h s) := by
  unfold doneOp
  split
  · rename_i hm
    refine ⟨?_, by exact le_trans (Nat.sub_le _ _) hs.2⟩
    have hcard : (s.active.erase h).card = s.active.card - 1 :=
      Finset.card_erase_of_mem hm
    have := hs.1
    simp only [hcard]
    omega
  · exact hs

/-- How many forced admissions a single event contains. -/
def forceCnt : Event → Nat
  | .force _ => 1
  | _ => 0

lemma schedInv_stepE {k m : Nat} {s : QState} (hk : k ≤ m)
    (hs : SchedInv m s) (e : Event) :
    SchedInv (m + forceCnt e) (stepE k s e).1 := by
  cases e with
  | add h => exact ⟨hs.1, hs.2⟩
  | remove h => exact ⟨hs.1, hs.2⟩
  | done h =>
    exact schedInv_popAttempt hk (schedInv_doneOp hs h)
  | force h =>
    have h1 : SchedInv (m + 1)
        ({ backlog := s.backlog.removeValue h,
           numActive := s.numActive + 1,
           active := insert h s.active } : QState) := by
      refine ⟨?_, ?_⟩
      · show (insert h s.active).card ≤ s.numActive + 1
        calc (insert h s.active).card ≤ s.active.card + 1 := Finset.card_insert_le _ _
          _ ≤ s.numActive + 1 := by have := hs.1; omega
      · show s.numActive + 1 ≤ m + 1
        have := hs.2; omega
    exact schedInv_popAttempt (by omega) h1
  | tick => exact schedInv_popAttempt hk hs

lemma schedInv_runE {k : Nat} :
    ∀ (es : List Event) (m : Nat) (s : QState), k ≤ m → SchedInv m s →
      SchedInv (m + countForce es) (runE k s es).1 := by
  intro es
  induction es with
  | nil => intro m s _ hs; exact hs
  | cons e es ih =>
    intro m s hk hs
    have h1 := schedInv_stepE (s := s) hk hs e
    have h2 := ih (m + forceCnt e) (stepE k s e).1 (by omega) h1
    have harith : m + forceCnt e + countForce es = m + countForce (e :: es) := by
      cases e <;> simp +arith [forceCnt, countForce]
    simpa [runE, harith] using h2

/-! ## C1: without ForceNext at most k ids are ever active -/

/-- C1: for every sequence of scheduler operations on `Run(maxActive = k)`
that contains no forced admission, the active-hash set of every reachable
state holds at most `k` ids: the loop pops only while the counter is below
`k`, increments it per pop, and decrements it per `Done` of an active id. -/
theorem active_bounded_without_force (k : Nat) (es : List Event)
    (hf : countForce es = 0) :
    ((runE k QState.start es).1).active.card ≤ k := by
  have h := schedInv_runE (k := k) es k QState.start (le_refl k)
    ⟨by simp [QState.start], by simp [QState.start]⟩
  rw [hf] at h
  exact le_trans h.1 h.2

/-- Witness for C1: a concrete force-free trace with `k = 1` never holds
more than one active id. -/
theorem active_bounded_without_force_witness :
    countForce [.add "a", .tick, .add "b", .tick, .done "a", .tick] = 0 ∧
    ((runE 1 QState.start
      [.add "a", .tick, .add "b", .tick, .done "a", .tick]).1).active.card ≤ 1 :=
  ⟨by decide,
   active_bounded_without_force 1
     [.add "a", .tick, .add "b", .tick, .done "a", .tick] (by decide)⟩

/-! ## C2: forced admissions and the k+1 bound -/

/-- C2 counterexample: with `maxActive = 1`, three forced admissions in a
row leave three ids in the active set, exceeding the claimed ceiling of
`k + 1 = 2` — each force bypasses the capacity check, so the overshoot is
not bounded by one. -/
theorem force_overshoot_cex :
    ¬ ((runE 1 QState.start [.force "a", .force "b", .force "c"]).1).active.card ≤ 1 + 1 := by
  decide

/-- C2 amended: `|ActiveSet|` is bounded by `k` plus the number of forced
admissions in the operation sequence (so a single ForceNext overshoots by
at most one and a force-free run stays at `k`), not by `k + 1` for
arbitrarily many forces; `Done` of active ids shrinks the set again. -/
theorem force_overshoot_bound (k : Nat) (es : List Event) :
    ((runE k QState.start es).1).active.card ≤ k + countForce es := by
  have h := schedInv_runE (k := k) es k QState.start (le_refl k)
    ⟨by simp [QState.start], by simp [QState.start]⟩
  exact le_trans h.1 h.2

/-! ## Backlog value membership lemmas (C9) -/

lemma insertKey_snd_mem {x : String} {k : List Nat} {v : String} :
    ∀ {l : List (List Nat × String)},
      x ∈ (insertKey k v l).map Prod.snd → x = v ∨ x ∈ l.map Prod.snd := by
  intro l
  induction l with
  | nil => intro hx; simp [insertKey] at hx; exact Or.inl hx
  | cons p rest ih =>
    intro hx
    unfold insertKey at hx
    by_cases h1 : keyLt k p.1
    · simp only [if_pos h1, List.map_cons, List.mem_cons] at hx
      rcases hx with h | h | h
      · exact Or.inl h
      · exact Or.inr (by simp [h])
      · exact Or.inr (by simp [h])
    · rw [if_neg h1] at hx
      by_cases h2 : k = p.1
      · simp only [if_pos h2, List.map_cons, List.mem_cons] at hx
        rcases hx with h | h
        · exact Or.inl h
        · exact Or.inr (by simp [h])
      · simp only [if_neg h2, List.map_cons, List.mem_cons] at hx
        rcases hx with h | h
        · exact Or.inr (by simp [h])
        · rcases ih h with h' | h'
          · exact Or.inl h'
          · exact Or.inr (by simp [h'])

lemma mem_values_removeValue {x h : String} {b : Bucket}
    (hx : x ∈ (b.removeValue h).values) : x ∈ b.values ∧ x ≠ h := by
  simp only [Bucket.removeValue, Bucket.values, List.mem_map] at hx
  rcases hx with ⟨p, hp, rfl⟩
  rw [List.mem_filter] at hp
  refine ⟨List.mem_map_of_mem _ hp.1, by simpa using hp.2⟩

lemma popAttempt_no {k : Nat} {s : QState} {id : String}
    (hid : id ∉ s.backlog.values) :
    id ∉ ((popAttempt k s).1).backlog.values ∧
    Yield.popped id ∉ (popAttempt k s).2 := by
  unfold popAttempt
  by_cases hlt : s.numActive < k
  · rw [if_pos hlt]
    cases hg : s.backlog.getFirst with
    | none => exact ⟨hid, by simp⟩
    | some h =>
      constructor
      · show id ∉ s.backlog.deleteFirst.values
        intro hmem
        apply hid
        have : s.backlog.deleteFirst.values = s.backlog.values.tail := by
          simp [Bucket.deleteFirst, Bucket.values, List.map_tail]
        rw [this] at hmem
        exact List.mem_of_mem_tail hmem
      · show Yield.popped id ∉ [Yield.popped h]
        have hh : h ∈ s.backlog.values := by
          cases he : s.backlog.entries with
          | nil => simp [Bucket.getFirst, he] at hg
          | cons p rest =>
            simp [Bucket.getFirst, he] at hg
            simp [Bucket.values, he, hg]
        simp only [List.mem_singleton]
        intro hc
        exact hid (by injection hc with h'; exact h' ▸ hh)
  · rw [if_neg hlt]; exact ⟨hid, by simp⟩

lemma stepE_no_pop {k : Nat} {s : QState} {id : String} {e : Event}
    (hs : id ∉ s.backlog.values) (he : e ≠ .add id) :
    id ∉ ((stepE k s e).1).backlog.values ∧
    Yield.popped id ∉ (stepE k s e).2 := by
  cases e with
  | add h =>
    refine ⟨?_, by simp [stepE]⟩
    show id ∉ (s.backlog.putAuto h).values
    intro hmem
    have hne : h ≠ id := fun hh => he (by rw [hh])
    rcases insertKey_snd_mem (l := s.backlog.entries) hmem with h1 | h1
    · exact hne h1.symm
    · exact hs h1
  | remove h =>
    refine ⟨?_, by simp [stepE]⟩
    intro hmem
    exact hs (mem_values_removeValue hmem).1
  | done h =>
    have hd : id ∉ ((doneOp h s).backlog).values := by
      unfold doneOp; split <;> exact hs
    exact popAttempt_no hd
  | force h =>
    have h1 : id ∉ (s.backlog.removeValue h).values := by
      intro hmem
      exact hs (mem_values_removeValue hmem).1
    have h2 := popAttempt_no (k := k)
      (s := { backlog := s.backlog.removeValue h,
              numActive := s.numActive + 1,
              active := insert h s.active }) h1
    refine ⟨h2.1, ?_⟩
    simp only [stepE, List.mem_cons]
    rintro (hc | hc)
    · cases hc
    · exact h2.2 hc
  | tick => exact popAttempt_no hs

lemma runE_no_pop {k : Nat} {i : String} :
    ∀ (es : List Event) (s : QState), i ∉ s.backlog.values →
      Event.add i ∉ es →
      i ∉ ((runE k s es).1).backlog.values ∧
      Yield.popped i ∉ (runE k s es).2 := by
  intro es
  induction es with
  | nil => intro s hs _; exact ⟨hs, by simp [runE]⟩
  | cons e es ih =>
    intro s hs hn
    have hne : e ≠ .add i := fun hh => hn (by rw [hh]; exact List.mem_cons_self _ _)
    have h1 := stepE_no_pop (k := k) (s := s) hs hne
    have h2 := ih (stepE k s e).1 h1.1 (fun hm => hn (List.mem_cons_of_mem _ hm))
    refine ⟨h2.1, ?_⟩
    simp only [runE, List.mem_append]
    rintro (hc | hc)
    · exact h1.2 hc
    · exact h2.2 hc

/-! ## C9: a forced id leaves the backlog and is not popped later -/

/-- C9 amended: the `cForce` arm first deletes every queued entry whose
value is the forced id (before the yield to the consumer), so after the
force step the id is absent from the backlog, that step's own pop cannot
deliver it, and — as long as no later `Add` re-enqueues the id — no later
backlog pop ever yields it again. -/
theorem forced_id_not_popped (k : Nat) (s : QState) (id : String)
    (post : List Event) (hre : Event.add id ∉ post) :
    (∀ p ∈ (Bucket.removeValue s.backlog id).entries, p.2 ≠ id) ∧
    id ∉ ((stepE k s (.force id)).1).backlog.values ∧
    Yield.popped id ∉ (stepE k s (.force id)).2 ∧
    Yield.popped id ∉ (runE k (stepE k s (.force id)).1 post).2 := by
  have hrm : ∀ p ∈ (Bucket.removeValue s.backlog id).entries, p.2 ≠ id := by
    intro p hp
    rw [Bucket.removeValue, List.mem_filter] at hp
    simpa using hp.2
  have h1 : id ∉ (s.backlog.removeValue id).values := by
    intro hmem
    exact (mem_values_removeValue hmem).2 rfl
  have h2 := popAttempt_no (k := k)
    (s := { backlog := s.backlog.removeValue id,
            numActive := s.numActive + 1,
            active := insert id s.active }) h1
  have hstep : id ∉ ((stepE k s (.force id)).1).backlog.values := h2.1
  have hyield : Yield.popped id ∉ (stepE k s (.force id)).2 := by
    simp only [stepE, List.mem_cons]
    rintro (hc | hc)
    · cases hc
    · exact h2.2 hc
  have h3 := runE_no_pop (k := k) (i := id) post (stepE k s (.force id)).1 hstep hre
  exact ⟨hrm, hstep, hyield, h3.2⟩

/-- C9 counterexample: after `Add("a")`, `ForceNext("a")` and a repeated
`Add("a")`, the next pop yields "a" from the backlog pop path again — the
force only purges the entries present at the moment it is processed. -/
theorem forced_id_popped_after_readd_cex :
    Yield.popped "a" ∈
      (runE 2 QState.start [.add "a", .force "a", .add "a", .tick]).2 := by
  decide

/-- Witness for C9: id "a" is added, forced, and two later ticks never pop
it again. -/
theorem forced_id_not_popped_witness :
    Event.add "a" ∉ ([.tick, .add "b", .tick] : List Event) ∧
    Yield.popped "a" ∉
      (runE 1 (stepE 1 ⟨Bucket.empty.putAuto "a", 0, ∅⟩ (.force "a")).1
        [.tick, .add "b", .tick]).2 :=
  ⟨by decide,
   (forced_id_not_popped 1 ⟨Bucket.empty.putAuto "a", 0, ∅⟩ "a"
     [.tick, .add "b", .tick] (by decide)).2.2.2⟩

/-! ## Key order lemmas (C4) -/

lemma keyLt_asymm : ∀ {a b : List Nat}, keyLt a b = true → keyLt b a = false
  | [], [], h => by simp [keyLt] at h
  | [], _ :: _, _ => by simp [keyLt]
  | _ :: _, [], h => by simp [keyLt] at h
  | a :: as, b :: bs, h => by
    unfold keyLt at h ⊢
    by_cases h1 : a < b
    · have h2 : ¬ b < a := by omega
      simp [h1, h2]
    · by_cases h2 : b < a
      · simp [h1, h2] at h
      · simp only [h1, h2, if_false] at h ⊢
        exact keyLt_asymm h

lemma keyLt_ne {a b : List Nat} (h : keyLt a b = true) : a ≠ b := by
  intro hab
  subst hab
  have h2 := keyLt_asymm h
  rw [h] at h2
  cases h2

lemma itobW_lt : ∀ (w : Nat) {u v : Nat}, u < v → v < 256 ^ w →
    keyLt (itobW w u) (itobW w v) = true := by
  intro w
  induction w with
  | zero =>
    intro u v huv hv
    norm_num at hv
    omega
  | succ w ih =>
    intro u v huv hv
    show keyLt ((u / 256 ^ w) :: itobW w (u % 256 ^ w))
      ((v / 256 ^ w) :: itobW w (v % 256 ^ w)) = true
    by_cases h1 : u / 256 ^ w < v / 256 ^ w
    · simp [keyLt, h1]
    · have heq : u / 256 ^ w = v / 256 ^ w :=
        le_antisymm (Nat.div_le_div_right (le_of_lt huv)) (not_lt.mp h1)
      have h2 : ¬ v / 256 ^ w < u / 256 ^ w := by omega
      have hmod : u % 256 ^ w < v % 256 ^ w := by
        have hu := Nat.div_add_mod u (256 ^ w)
        have hv' := Nat.div_add_mod v (256 ^ w)
        rw [heq] at hu
        omega
      have hvlt : v % 256 ^ w < 256 ^ w := Nat.mod_lt _ (by positivity)
      simp [keyLt, h1, h2, ih hmod hvlt]

lemma itob_lt {u v : Nat} (h : u < v) (hv : v < 2 ^ 64) :
    keyLt (itob u) (itob v) = true := by
  unfold itob
  rw [Nat.mod_eq_of_lt (lt_trans h hv), Nat.mod_eq_of_lt hv]
  exact itobW_lt 8 h (by norm_num at hv ⊢; omega)

lemma insertKey_append {k : List Nat} {v : String} :
    ∀ {l : List (List Nat × String)}, (∀ p ∈ l, keyLt p.1 k = true) →
      insertKey k v l = l ++ [(k, v)]
  | [], _ => rfl
  | (k', v') :: rest, h => by
    have hk : keyLt k' k = true := h (k', v') (List.mem_cons_self _ _)
    have h1 : keyLt k k' = false := keyLt_asymm hk
    have h2 : k ≠ k' := (keyLt_ne hk).symm
    unfold insertKey
    rw [if_neg (by simp [h1]), if_neg h2,
      insertKey_append (fun p hp => h p (List.mem_cons_of_mem _ hp))]
    rfl

/-- The auto-increment keys generated by `n` successive `Add` calls on an
initially empty queued bucket, in creation order. -/
def canonKeys (n : Nat) : List (List Nat) := (List.range n).map (fun i => itob (i + 1))

lemma canonKeys_length (n : Nat) : (canonKeys n).length = n := by simp [canonKeys]

lemma canonKeys_succ (n : Nat) : canonKeys (n + 1) = canonKeys n ++ [itob (n + 1)] := by
  simp [canonKeys, List.range_succ]

lemma mem_canonKeys {x : List Nat} {n : Nat} (hx : x ∈ canonKeys n) :
    ∃ i, i < n ∧ x = itob (i + 1) := by
  simp only [canonKeys, List.mem_map, List.mem_range] at hx
  rcases hx with ⟨i, hi, rfl⟩
  exact ⟨i, hi, rfl⟩

lemma addAll_go (hs : List String) :
    ∀ (vs : List String), vs.length + hs.length < 2 ^ 64 →
      List.foldl Bucket.putAuto ⟨(canonKeys vs.length).zip vs, vs.length⟩ hs =
        ⟨(canonKeys (vs.length + hs.length)).zip (vs ++ hs), vs.length + hs.length⟩ := by
  induction hs with
  | nil => intro vs h; simp
  | cons h₀ t ih =>
    intro vs hbound
    rw [List.foldl_cons]
    simp only [List.length_cons] at hbound
    have hid : (vs.length + 1) % 2 ^ 64 = vs.length + 1 := by
      apply Nat.mod_eq_of_lt
      omega
    have hall : ∀ p ∈ (canonKeys vs.length).zip vs, keyLt p.1 (itob (vs.length + 1)) = true := by
      rintro ⟨k', v'⟩ hp
      have h1 := (List.of_mem_zip hp).1
      rcases mem_canonKeys h1 with ⟨i, hi, rfl⟩
      exact itob_lt (by omega) (by omega)
    have hstep : Bucket.putAuto ⟨(canonKeys vs.length).zip vs, vs.length⟩ h₀ =
        ⟨(canonKeys (vs.length + 1)).zip (vs ++ [h₀]), vs.length + 1⟩ := by
      unfold Bucket.putAuto
      simp only [hid]
      congr 1
      rw [insertKey_append hall, canonKeys_succ,
        List.zip_append (by simp [canonKeys_length])]
      rfl
    rw [hstep]
    have hvs1 : (vs ++ [h₀]).length = vs.length + 1 := by simp
    have ht := ih (vs ++ [h₀]) (by rw [hvs1]; omega)
    rw [hvs1] at ht
    have harith : vs.length + 1 + t.length = vs.length + (t.length + 1) := by omega
    rw [harith, List.append_assoc, List.singleton_append] at ht
    simpa only [List.length_cons] using ht

lemma addAll_eq (hs : List String) (hn : hs.length < 2 ^ 64) :
    addAll hs = ⟨(canonKeys hs.length).zip hs, hs.length⟩ := by
  have h := addAll_go hs [] (by simpa using hn)
  simpa [addAll, Bucket.empty, canonKeys] using h

lemma runE_append (k : Nat) :
    ∀ (es1 es2 : List Event) (s : QState),
      runE k s (es1 ++ es2) =
        ((runE k (runE k s es1).1 es2).1,
          (runE k s es1).2 ++ (runE k (runE k s es1).1 es2).2) := by
  intro es1
  induction es1 with
  | nil => intro es2 s; simp [runE]
  | cons e es ih =>
    intro es2 s
    show runE k s ((e :: es) ++ es2) = _
    rw [List.cons_append]
    simp only [runE]
    rw [ih es2 (stepE k s e).1]
    simp [List.append_assoc]

lemma runE_adds (k : Nat) :
    ∀ (hs : List String) (b : Bucket) (a : Nat) (act : Finset String),
      runE k ⟨b, a, act⟩ (hs.map .add) =
        (⟨List.foldl Bucket.putAuto b hs, a, act⟩, []) := by
  intro hs
  induction hs with
  | nil => intro b a act; simp [runE]
  | cons h t ih =>
    intro b a act
    simp only [List.map_cons, runE, stepE, List.foldl_cons]
    rw [ih]
    simp

lemma runE_ticks_drain (k : Nat) :
    ∀ (l : List (List Nat × String)) (sq a : Nat) (act : Finset String),
      a + l.length ≤ k →
      (runE k ⟨⟨l, sq⟩, a, act⟩ (List.replicate l.length .tick)).2 =
        (l.map Prod.snd).map Yield.popped := by
  intro l
  induction l with
  | nil => intro sq a act _; simp [runE]
  | cons p t ih =>
    intro sq a act hak
    have hlt : a < k := by simp at hak; omega
    have hpop : stepE k ⟨⟨p :: t, sq⟩, a, act⟩ .tick =
        (⟨⟨t, sq⟩, a + 1, insert p.2 act⟩, [.popped p.2]) := by
      simp [stepE, popAttempt, hlt, Bucket.getFirst, Bucket.deleteFirst]
    simp only [List.length_cons, List.replicate_succ, runE, hpop]
    rw [ih sq (a + 1) (insert p.2 act) (by simp at hak ⊢; omega)]
    simp

/-! ## C4: FIFO yield order from auto-increment keys -/

/-- C4: after `n` Adds on an empty backlog (any `n` below the uint64 wrap)
the stored keys are strictly increasing in store order under the byte-wise
key order, the stored values in key order are exactly the added hashes, and
running the control loop (which always pops the first key) over those Adds
followed by enough ticks yields the hashes from the pop path in exactly the
order they were added. -/
theorem backlog_fifo (hs : List String) (hn : hs.length < 2 ^ 64) :
    ((addAll hs).entries.map Prod.fst).Pairwise (fun a b => keyLt a b = true) ∧
    (addAll hs).entries.map Prod.snd = hs ∧
    (runE hs.length QState.start
      (hs.map Event.add ++ List.replicate hs.length Event.tick)).2 =
      hs.map Yield.popped := by
  have he := addAll_eq hs hn
  have hzlen : (canonKeys hs.length).length = hs.length := canonKeys_length _
  have hkeys : (addAll hs).entries.map Prod.fst = canonKeys hs.length := by
    rw [he]
    exact List.map_fst_zip _ _ (le_of_eq hzlen)
  have hvals : (addAll hs).entries.map Prod.snd = hs := by
    rw [he]
    exact List.map_snd_zip _ _ (le_of_eq hzlen.symm)
  refine ⟨?_, hvals, ?_⟩
  · rw [hkeys]
    unfold canonKeys
    rw [List.pairwise_map]
    have hp := List.pairwise_lt_range hs.length
    rw [List.Pairwise.and_mem] at hp
    refine hp.imp ?_
    intro i j hij
    rcases hij with ⟨hi, hj, hlt⟩
    rw [List.mem_range] at hi hj
    exact itob_lt (by omega) (by omega)
  · rw [runE_append]
    have hstart : QState.start = (⟨Bucket.empty, 0, ∅⟩ : QState) := rfl
    rw [hstart, runE_adds]
    have haddAll : List.foldl Bucket.putAuto Bucket.empty hs = addAll hs := rfl
    rw [haddAll, he]
    have hlen : ((canonKeys hs.length).zip hs).length = hs.length := by
      simp [List.length_zip, hzlen]
    have hd := runE_ticks_drain hs.length ((canonKeys hs.length).zip hs)
      hs.length 0 ∅ (by omega)
    rw [hlen] at hd
    rw [hd]
    have : ((canonKeys hs.length).zip hs).map Prod.snd = hs :=
      List.map_snd_zip _ _ (le_of_eq hzlen.symm)
    rw [this]
    simp

/-- Witness for C4 on three concrete hashes. -/
theorem backlog_fifo_witness :
    (["a", "b", "c"] : List String).length < 2 ^ 64 ∧
    (((addAll ["a", "b", "c"]).entries.map Prod.fst).Pairwise
      (fun a b => keyLt a b = true) ∧
     (addAll ["a", "b", "c"]).entries.map Prod.snd = ["a", "b", "c"] ∧
     (runE 3 QState.start
       ([.add "a", .add "b", .add "c"] ++ List.replicate 3 Event.tick)).2 =
       [.popped "a", .popped "b", .popped "c"]) :=
  ⟨by decide, backlog_fifo ["a", "b", "c"] (by decide)⟩

/-! ## Backlog value uniqueness (C8) -/

lemma count_insertKey_snd (x v : String) (k : List Nat) :
    ∀ (l : List (List Nat × String)),
      ((insertKey k v l).map Prod.snd).count x ≤ ((v :: l.map Prod.snd)).count x := by
  intro l
  induction l with
  | nil => simp [insertKey]
  | cons p rest ih =>
    unfold insertKey
    by_cases h1 : keyLt k p.1
    · rw [if_pos (by simp [h1])]
      exact le_of_eq rfl
    · rw [if_neg (by simp [h1])]
      by_cases h2 : k = p.1
      · rw [if_pos h2]
        simp only [List.map_cons, List.count_cons]
        split_ifs <;> omega
      · rw [if_neg h2]
        simp only [List.map_cons, List.count_cons] at ih ⊢
        split_ifs at ih ⊢ <;> omega

lemma nodup_insertKey {k : List Nat} {v : String} {l : List (List Nat × String)}
    (hn : (l.map Prod.snd).Nodup) (hv : v ∉ l.map Prod.snd) :
    ((insertKey k v l).map Prod.snd).Nodup := by
  rw [List.nodup_iff_count_le_one] at hn ⊢
  intro a
  refine le_trans (count_insertKey_snd a v k l) ?_
  rw [List.count_cons]
  by_cases hav : a = v
  · subst hav
    have h0 : (l.map Prod.snd).count a = 0 := List.count_eq_zero_of_not_mem hv
    simp [h0]
  · have hba : (v == a) = false := by
      simp only [beq_eq_false_iff_ne, ne_eq]
      exact fun h => hav h.symm
    rw [hba]
    simpa using hn a

lemma nodup_values_popAttempt {k : Nat} {s : QState}
    (hn : s.backlog.values.Nodup) :
    ((popAttempt k s).1).backlog.values.Nodup := by
  unfold popAttempt
  by_cases hlt : s.numActive < k
  · rw [if_pos hlt]
    cases hg : s.backlog.getFirst with
    | none => exact hn
    | some h =>
      show (s.backlog.deleteFirst.values).Nodup
      have hv : s.backlog.deleteFirst.values = s.backlog.values.tail := by
        simp [Bucket.deleteFirst, Bucket.values, List.map_tail]
      rw [hv]
      exact hn.sublist (List.tail_sublist _)
  · rw [if_neg hlt]; exact hn

lemma nodup_values_removeValue {s : Bucket} {h : String}
    (hn : s.values.Nodup) : (s.removeValue h).values.Nodup := by
  have hsub : (s.removeValue h).values.Sublist s.values :=
    List.Sublist.map _ (List.filter_sublist _)
  exact hn.sublist hsub

lemma nodup_values_stepE {k : Nat} {s : QState} {e : Event}
    (hn : s.backlog.values.Nodup)
    (hok : (match e with
            | Event.add h => !(s.backlog.values.contains h)
            | _ => true) = true) :
    ((stepE k s e).1).backlog.values.Nodup := by
  cases e with
  | add h =>
    have hfresh : h ∉ s.backlog.values := by simpa using hok
    exact nodup_insertKey hn hfresh
  | remove h => exact nodup_values_removeValue hn
  | done h =>
    have hd : ((doneOp h s).backlog).values.Nodup := by
      unfold doneOp; split <;> exact hn
    exact nodup_values_popAttempt hd
  | force h =>
    exact nodup_values_popAttempt
      (s := { backlog := s.backlog.removeValue h,
              numActive := s.numActive + 1,
              active := insert h s.active })
      (nodup_values_removeValue hn)
  | tick => exact nodup_values_popAttempt hn

lemma nodup_values_runE {k : Nat} :
    ∀ (es : List Event) (s : QState), s.backlog.values.Nodup →
      addsFresh k s es = true →
      ((runE k s es).1).backlog.values.Nodup := by
  intro es
  induction es with
  | nil => intro s hn _; exact hn
  | cons e es ih =>
    intro s hn hf
    unfold addsFresh at hf
    rw [Bool.and_eq_true] at hf
    exact ih (stepE k s e).1 (nodup_values_stepE hn hf.1) hf.2

/-! ## C8: at most one queue entry per id -/

/-- C8 counterexample: calling `Add` twice with the same id stores the id
under two distinct auto-increment keys — the durable backlog then holds two
entries whose value is that id, so the at-most-one invariant fails for
sequences with duplicate Adds (`Add` performs no duplicate check). -/
theorem queue_entry_unique_cex :
    ((runE 1 QState.start [.add "a", .add "a"]).1).backlog.values.count "a" = 2 ∧
    ¬ ((runE 1 QState.start [.add "a", .add "a"]).1).backlog.values.Nodup := by
  constructor <;> decide

/-- C8 amended: under the documented caller obligation — never `Add` an id
that is still stored in the backlog — every reachable store state keeps
each id in at most one queue entry; pops, removes and forces only delete
entries, so only an undisciplined `Add` can create a duplicate. -/
theorem queue_entry_unique (k : Nat) (es : List Event)
    (hfresh : addsFresh k QState.start es = true) :
    ((runE k QState.start es).1).backlog.values.Nodup :=
  nodup_values_runE es QState.start (by simp [QState.start, Bucket.empty, Bucket.values]) hfresh

/-- Witness for C8: a concrete disciplined trace keeps the backlog values
duplicate-free. -/
theorem queue_entry_unique_witness :
    addsFresh 1 QState.start [.add "a", .add "b", .tick, .add "a"] = true ∧
    ((runE 1 QState.start [.add "a", .add "b", .tick, .add "a"]).1).backlog.values.Nodup :=
  ⟨by decide, queue_entry_unique 1 [.add "a", .add "b", .tick, .add "a"] (by decide)⟩

end Riptide
